import Mathlib

/-!
Shallow embedding of the spectral operator-learning core of the
physmodjax repository (src/physmodjax/models/fno.py and
src/physmodjax/models/autoencoders.py), together with theorems checking
the natural-language specification against it.

Arrays are embedded as explicitly sized tensors over ℕ-indexed entry
functions; every constructor masks entries outside the declared extent
to zero, and every read goes through a masked `get`, so that shape
mismatches (the JAX errors) are observable and equalities are on the
nose.  Fallible operations (broadcasting failures, einsum dimension
mismatches, invalid inverse-FFT lengths) return `Option`.
-/

namespace Physmodjax

/-- Real 2-D array (spatial rows, channel columns) with explicit extents. -/
structure RMat where
  r : ℕ
  c : ℕ
  e : ℕ → ℕ → ℝ

/-- Build a real matrix, zeroing entries outside the declared extent. -/
def RMat.of (r c : ℕ) (f : ℕ → ℕ → ℝ) : RMat :=
  ⟨r, c, fun i j => if i < r ∧ j < c then f i j else 0⟩

/-- Masked read of a real matrix. -/
def RMat.get (A : RMat) (i j : ℕ) : ℝ :=
  if i < A.r ∧ j < A.c then A.e i j else 0

@[simp] theorem RMat_of_r (r c : ℕ) (f : ℕ → ℕ → ℝ) : (RMat.of r c f).r = r := rfl

@[simp] theorem RMat_of_c (r c : ℕ) (f : ℕ → ℕ → ℝ) : (RMat.of r c f).c = c := rfl

theorem RMat_get_of (r c : ℕ) (f : ℕ → ℕ → ℝ) (i j : ℕ) :
    (RMat.of r c f).get i j = if i < r ∧ j < c then f i j else 0 := by
  simp only [RMat.get, RMat.of]
  split <;> simp_all

/-- Complex 2-D array with explicit extents. -/
structure CMat where
  r : ℕ
  c : ℕ
  e : ℕ → ℕ → ℂ

/-- Build a complex matrix, zeroing entries outside the declared extent. -/
def CMat.of (r c : ℕ) (f : ℕ → ℕ → ℂ) : CMat :=
  ⟨r, c, fun i j => if i < r ∧ j < c then f i j else 0⟩

/-- Masked read of a complex matrix. -/
def CMat.get (A : CMat) (i j : ℕ) : ℂ :=
  if i < A.r ∧ j < A.c then A.e i j else 0

@[simp] theorem CMat_of_r (r c : ℕ) (f : ℕ → ℕ → ℂ) : (CMat.of r c f).r = r := rfl

@[simp] theorem CMat_of_c (r c : ℕ) (f : ℕ → ℕ → ℂ) : (CMat.of r c f).c = c := rfl

theorem CMat_get_of (r c : ℕ) (f : ℕ → ℕ → ℂ) (i j : ℕ) :
    (CMat.of r c f).get i j = if i < r ∧ j < c then f i j else 0 := by
  simp only [CMat.get, CMat.of]
  split <;> simp_all

/-- The all-zero real matrix of a given extent. -/
def zMat (r c : ℕ) : RMat := RMat.of r c fun _ _ => 0

@[simp] theorem zMat_get (r c i j : ℕ) : (zMat r c).get i j = 0 := by
  simp [zMat, RMat_get_of]

@[simp] theorem zMat_r (r c : ℕ) : (zMat r c).r = r := rfl

@[simp] theorem zMat_c (r c : ℕ) : (zMat r c).c = c := rfl

/-- jax.nn.gelu (tanh approximation, the flax default activation used by FNO1D). -/
noncomputable def gelu (x : ℝ) : ℝ :=
  0.5 * x * (1 + Real.tanh (Real.sqrt (2 / Real.pi) * (x + 0.044715 * x ^ 3)))

@[simp] theorem gelu_zero : gelu 0 = 0 := by
  simp [gelu]

/-- Forward DFT kernel exp(-2 pi I k n / N). -/
noncomputable def fker (N k n : ℕ) : ℂ :=
  Complex.exp (-(2 * Real.pi * Complex.I) * (k * n) / N)

/-- Inverse DFT kernel exp(2 pi I k n / N). -/
noncomputable def iker (N k n : ℕ) : ℂ :=
  Complex.exp ((2 * Real.pi * Complex.I) * (k * n) / N)

@[simp] theorem fker_zero_left (N n : ℕ) : fker N 0 n = 1 := by
  simp [fker]

@[simp] theorem iker_zero_right (N j : ℕ) : iker N j 0 = 1 := by
  simp [iker]

/-- Normalization mode of a numpy FFT call: "ortho" or the default "backward". -/
inductive FNorm where
  | ortho
  | backward
deriving DecidableEq

/-- Scale factor of a forward transform of size N under the given normalization. -/
noncomputable def fwdScale (nm : FNorm) (N : ℕ) : ℝ :=
  match nm with
  | .ortho => (Real.sqrt N)⁻¹
  | .backward => 1

/-- Scale factor of an inverse transform of size N under the given normalization. -/
noncomputable def invScale (nm : FNorm) (N : ℕ) : ℝ :=
  match nm with
  | .ortho => (Real.sqrt N)⁻¹
  | .backward => (N : ℝ)⁻¹

/-- jnp.fft.rfft along the spatial (row) axis with transform length N:
crop or zero-pad the rows to N, take the DFT, and keep the N/2+1
non-negative-frequency bins. -/
noncomputable def rfftN (nm : FNorm) (N : ℕ) (A : RMat) : CMat :=
  CMat.of (N / 2 + 1) A.c fun k ch =>
    (fwdScale nm N : ℂ) * ∑ n ∈ Finset.range N, (A.get n ch : ℂ) * fker N k n

/-- Bin k of the hermitian extension (to full length N) of the half-spectrum X,
as used by the numpy C2R inverse transform. -/
noncomputable def hermBin (X : CMat) (N k ch : ℕ) : ℂ :=
  if k ≤ N / 2 then X.get k ch else (starRingEnd ℂ) (X.get (N - k) ch)

/-- jnp.fft.irfft along the spatial (row) axis with output length N:
hermitian-extend the half-spectrum and take the real inverse DFT. -/
noncomputable def irfftN (nm : FNorm) (N : ℕ) (X : CMat) : RMat :=
  RMat.of N X.c fun j ch =>
    invScale nm N * (∑ k ∈ Finset.range N, hermBin X N k ch * iker N j k).re

/-- Row truncation X[:m]. -/
def CMat.truncR (m : ℕ) (X : CMat) : CMat := CMat.of (min m X.r) X.c X.get

/-- Row crop A[:m]. -/
def RMat.take (m : ℕ) (A : RMat) : RMat := RMat.of (min m A.r) A.c A.get

/-- Parameters of SpectralConv1d: the real and imaginary parts of the
per-mode complex weight, indexed (in-channel, out-channel, mode). -/
structure SpecConvP where
  re : ℕ → ℕ → ℕ → ℝ
  im : ℕ → ℕ → ℕ → ℝ

/-- The all-zero spectral weight. -/
def SpecConvP.zero : SpecConvP := ⟨fun _ _ _ => 0, fun _ _ _ => 0⟩

/-- The complex weight reconstituted at the point of use
(weight_real + 1j * weight_imag). -/
noncomputable def SpecConvP.cw (p : SpecConvP) (i o k : ℕ) : ℂ :=
  (p.re i o k : ℂ) + (p.im i o k : ℂ) * Complex.I

/-- jnp.einsum "ki,iok->ko": contract the truncated spectrum with the
complex weight.  The mode extents must agree, except that numpy einsum
broadcasts a labelled dimension of size 1; any other mismatch is an error. -/
noncomputable def einsum1d (nM dV : ℕ) (p : SpecConvP) (X : CMat) : Option CMat :=
  if X.r = nM ∨ X.r = 1 then
    some (CMat.of nM dV fun k o =>
      ∑ i ∈ Finset.range X.c, X.get (if X.r = 1 then 0 else k) i * p.cw i o k)
  else
    none

/-- SpectralConv1d.__call__ (src/physmodjax/models/fno.py lines 39-59):
rfft of the input zero-padded to 2W-1 with ortho normalization, truncation
to the first n_modes bins, contraction with the complex weight, then the
ortho-normalized irfft at its default output length 2*(n_modes-1), cropped
back to W rows.  An invalid inverse length (n_modes < 2) or an einsum
mode-count mismatch is an error. -/
noncomputable def spectralConv1d (nM dV : ℕ) (p : SpecConvP) (x : RMat) : Option RMat :=
  match einsum1d nM dV p ((rfftN .ortho (2 * x.r - 1) x).truncR nM) with
  | none => none
  | some Y => if 2 ≤ nM then some ((irfftN .ortho (2 * (nM - 1)) Y).take x.r) else none

/-- Number of rows actually produced by SpectralConv1d on a W-row input. -/
def specConvOutRows (nM W : ℕ) : ℕ := min W (2 * (nM - 1))

theorem spectralConv1d_rows (nM dV : ℕ) (p : SpecConvP) (x : RMat) (y : RMat)
    (h : spectralConv1d nM dV p x = some y) :
    y.r = specConvOutRows nM x.r ∧ y.c = dV := by
  unfold spectralConv1d at h
  cases hE : einsum1d nM dV p ((rfftN .ortho (2 * x.r - 1) x).truncR nM) with
  | none => rw [hE] at h; exact absurd h (by simp)
  | some Y =>
      rw [hE] at h
      dsimp only at h
      by_cases h2 : 2 ≤ nM
      · rw [if_pos h2] at h
        have hy : (irfftN FNorm.ortho (2 * (nM - 1)) Y).take x.r = y := by
          exact Option.some.inj h
        subst hy
        have hc : Y.c = dV := by
          unfold einsum1d at hE
          split at hE
          · cases hE; rfl
          · exact absurd hE (by simp)
        simp [RMat.take, irfftN, specConvOutRows, hc]
      · rw [if_neg h2] at h
        exact absurd h (by simp)

/-- Real 3-D array (e.g. a Field trajectory (T, W, C)) with explicit extents. -/
structure RTen3 where
  d1 : ℕ
  d2 : ℕ
  d3 : ℕ
  e : ℕ → ℕ → ℕ → ℝ

/-- Build a real 3-D array, zeroing entries outside the declared extent. -/
def RTen3.of (d1 d2 d3 : ℕ) (f : ℕ → ℕ → ℕ → ℝ) : RTen3 :=
  ⟨d1, d2, d3, fun i j k => if i < d1 ∧ j < d2 ∧ k < d3 then f i j k else 0⟩

/-- Masked read of a real 3-D array. -/
def RTen3.get (A : RTen3) (i j k : ℕ) : ℝ :=
  if i < A.d1 ∧ j < A.d2 ∧ k < A.d3 then A.e i j k else 0

@[simp] theorem RTen3_of_d1 (a b c : ℕ) (f : ℕ → ℕ → ℕ → ℝ) : (RTen3.of a b c f).d1 = a := rfl

@[simp] theorem RTen3_of_d2 (a b c : ℕ) (f : ℕ → ℕ → ℕ → ℝ) : (RTen3.of a b c f).d2 = b := rfl

@[simp] theorem RTen3_of_d3 (a b c : ℕ) (f : ℕ → ℕ → ℕ → ℝ) : (RTen3.of a b c f).d3 = c := rfl

theorem RTen3_get_of (a b c : ℕ) (f : ℕ → ℕ → ℕ → ℝ) (i j k : ℕ) :
    (RTen3.of a b c f).get i j k = if i < a ∧ j < b ∧ k < c then f i j k else 0 := by
  simp only [RTen3.get, RTen3.of]
  split <;> simp_all

/-- Parameters of a flax nn.Dense layer (kernel of shape (din, dout) plus bias);
also used for the kernel-size-1 nn.Conv, which acts pointwise identically. -/
structure DenseP where
  w : ℕ → ℕ → ℝ
  b : ℕ → ℝ

/-- The all-zero dense parameters. -/
def DenseP.zero : DenseP := ⟨fun _ _ => 0, fun _ => 0⟩

/-- nn.Dense applied along the channel (last) axis of a (rows, din) array:
y = x @ kernel + bias. -/
def denseApply (din dout : ℕ) (p : DenseP) (A : RMat) : RMat :=
  RMat.of A.r dout fun i o => (∑ j ∈ Finset.range din, A.get i j * p.w j o) + p.b o

theorem denseApply_zero (din dout : ℕ) (A : RMat) :
    denseApply din dout DenseP.zero A = zMat A.r dout := by
  simp [denseApply, zMat, DenseP.zero]

/-- Entry-wise activation. -/
def RMat.mapE (f : ℝ → ℝ) (A : RMat) : RMat := RMat.of A.r A.c fun i j => f (A.get i j)

/-- Entry-wise sum of two arrays of the same extent. -/
def RMat.add2 (A B : RMat) : RMat := RMat.of A.r A.c fun i j => A.get i j + B.get i j

/-- One layer of SpectralLayers1d (src/physmodjax/models/fno.py lines 91-94):
x := activation (conv x + w x).  The sum is a JAX broadcast add, which
fails unless the spectral branch returns as many rows as the input. -/
noncomputable def layerStep (nM hidden : ℕ) (cp : SpecConvP) (wp : DenseP)
    (act : ℝ → ℝ) (x : RMat) : Option RMat :=
  match spectralConv1d nM hidden cp x with
  | none => none
  | some x1 =>
      if x1.r = x.r then some ((x1.add2 (denseApply x.c hidden wp x)).mapE act)
      else none

/-- SpectralLayers1d.__call__: fold the per-layer step over n_layers layers. -/
noncomputable def spectralLayers (nM hidden nL : ℕ) (cp : ℕ → SpecConvP)
    (wp : ℕ → DenseP) (act : ℝ → ℝ) (x : RMat) : Option RMat :=
  (List.range nL).foldl (fun acc l => acc.bind (layerStep nM hidden (cp l) (wp l) act)) (some x)

/-- Parameters of FNO1D: lifting dense layer, per-layer spectral weights and
pointwise convolutions, and the two projection dense layers. -/
structure FNO1DP where
  lift : DenseP
  conv : ℕ → SpecConvP
  pw : ℕ → DenseP
  proj1 : DenseP
  proj2 : DenseP

/-- The all-zero FNO1D parameter set. -/
def FNO1DP.zero : FNO1DP :=
  ⟨DenseP.zero, fun _ => SpecConvP.zero, fun _ => DenseP.zero, DenseP.zero, DenseP.zero⟩

/-- einops rearrange "t w c -> w (t c)" of a (T, W, C) array. -/
def mergeTC (x : RTen3) : RMat :=
  RMat.of x.d2 (x.d1 * x.d3) fun w j => x.get (j / x.d3) w (j % x.d3)

/-- einops rearrange "w (t c) -> t w c" with t = nSteps, c = dV. -/
def splitTC (nSteps dV : ℕ) (y : RMat) : RTen3 :=
  RTen3.of nSteps y.r dV fun t w c => y.get w (t * dV + c)

/-- FNO1D.__call__ (src/physmodjax/models/fno.py lines 110-150): rearrange
time into channels, lift with a dense layer, run the spectral layer stack
with the gelu activation, project through the Dense(128)-gelu-Dense mlp,
and rearrange back into an explicit time axis of length n_steps. -/
noncomputable def fno1d (hidden nM dV nL nSteps : ℕ) (p : FNO1DP) (x : RTen3) :
    Option RTen3 :=
  (spectralLayers nM hidden nL p.conv p.pw gelu
      (denseApply (x.d1 * x.d3) hidden p.lift (mergeTC x))).map fun h2 =>
    splitTC nSteps dV
      (denseApply 128 (dV * nSteps) p.proj2 ((denseApply hidden 128 p.proj1 h2).mapE gelu))

theorem RMat_of_congr (r c : ℕ) (f g : ℕ → ℕ → ℝ)
    (h : ∀ i j, i < r → j < c → f i j = g i j) : RMat.of r c f = RMat.of r c g := by
  unfold RMat.of
  congr 1
  funext i j
  split
  next hh => exact h i j hh.1 hh.2
  next => rfl

theorem CMat_of_congr (r c : ℕ) (f g : ℕ → ℕ → ℂ)
    (h : ∀ i j, i < r → j < c → f i j = g i j) : CMat.of r c f = CMat.of r c g := by
  unfold CMat.of
  congr 1
  funext i j
  split
  next hh => exact h i j hh.1 hh.2
  next => rfl

theorem RTen3_of_congr (a b c : ℕ) (f g : ℕ → ℕ → ℕ → ℝ)
    (h : ∀ i j k, i < a → j < b → k < c → f i j k = g i j k) :
    RTen3.of a b c f = RTen3.of a b c g := by
  unfold RTen3.of
  congr 1
  funext i j k
  split
  next hh => exact h i j k hh.1 hh.2.1 hh.2.2
  next => rfl

@[simp] theorem SpecConvP.cw_zero (i o k : ℕ) : SpecConvP.zero.cw i o k = 0 := by
  simp [SpecConvP.cw, SpecConvP.zero]

theorem einsum1d_zeroW (nM dV : ℕ) (X : CMat) (h : X.r = nM ∨ X.r = 1) :
    einsum1d nM dV SpecConvP.zero X = some (CMat.of nM dV fun _ _ => 0) := by
  unfold einsum1d
  rw [if_pos h]
  congr 1
  apply CMat_of_congr
  intro k o _ _
  simp

theorem irfftN_zeroC (nm : FNorm) (N r c : ℕ) :
    irfftN nm N (CMat.of r c fun _ _ => 0) = zMat N c := by
  unfold irfftN zMat
  apply RMat_of_congr
  intro j ch _ _
  have hz : ∀ k ∈ Finset.range N,
      hermBin (CMat.of r c fun _ _ => 0) N k ch * iker N j k = 0 := by
    intro k _
    simp [hermBin, CMat_get_of]
  rw [Finset.sum_congr rfl hz]
  simp

theorem take_zMat (W N c : ℕ) : (zMat N c).take W = zMat (min W N) c := by
  unfold RMat.take zMat
  apply RMat_of_congr
  intro i j _ _
  simp [RMat_get_of]

theorem spectralConv1d_zeroW (nM dV : ℕ) (x : RMat)
    (hg : min nM ((2 * x.r - 1) / 2 + 1) = nM ∨ min nM ((2 * x.r - 1) / 2 + 1) = 1)
    (h2 : 2 ≤ nM) :
    spectralConv1d nM dV SpecConvP.zero x = some (zMat (min x.r (2 * (nM - 1))) dV) := by
  have hg2 : ((rfftN .ortho (2 * x.r - 1) x).truncR nM).r = nM ∨
      ((rfftN .ortho (2 * x.r - 1) x).truncR nM).r = 1 := by
    simpa [CMat.truncR, rfftN] using hg
  unfold spectralConv1d
  rw [einsum1d_zeroW nM dV _ hg2]
  dsimp only
  rw [if_pos h2, irfftN_zeroC, take_zMat]

theorem RMat.mapE_zMat (f : ℝ → ℝ) (hf : f 0 = 0) (r c : ℕ) :
    (zMat r c).mapE f = zMat r c := by
  unfold RMat.mapE zMat
  apply RMat_of_congr
  intro i j _ _
  simpa [RMat_get_of] using hf

theorem layerStep_zeroW (nM hidden W : ℕ)
    (hg : min nM ((2 * W - 1) / 2 + 1) = nM ∨ min nM ((2 * W - 1) / 2 + 1) = 1)
    (h2 : 2 ≤ nM) (hW : min W (2 * (nM - 1)) = W) :
    layerStep nM hidden SpecConvP.zero DenseP.zero gelu (zMat W hidden) =
      some (zMat W hidden) := by
  unfold layerStep
  rw [spectralConv1d_zeroW nM hidden (zMat W hidden) (by simpa using hg) h2]
  dsimp only
  rw [if_pos (by simpa [zMat] using hW)]
  congr 1
  rw [denseApply_zero]
  simp only [zMat, RMat_of_r, hW]
  have hadd : ((zMat W hidden).add2 (zMat W hidden)) = zMat W hidden := by
    unfold RMat.add2 zMat
    apply RMat_of_congr
    intro i j _ _
    simp [RMat_get_of]
  calc ((zMat W hidden).add2 (zMat W hidden)).mapE gelu
      = (zMat W hidden).mapE gelu := by rw [hadd]
    _ = zMat W hidden := RMat.mapE_zMat gelu gelu_zero W hidden

theorem foldl_bind_none {α : Type} (g : ℕ → α → Option α) (l : List ℕ) :
    l.foldl (fun acc i => acc.bind (g i)) none = none := by
  induction l with
  | nil => rfl
  | cons a as ih => simpa using ih

theorem spectralLayers_zeroW (nM hidden nL W : ℕ)
    (hg : min nM ((2 * W - 1) / 2 + 1) = nM ∨ min nM ((2 * W - 1) / 2 + 1) = 1)
    (h2 : 2 ≤ nM) (hW : min W (2 * (nM - 1)) = W) :
    spectralLayers nM hidden nL (fun _ => SpecConvP.zero) (fun _ => DenseP.zero) gelu
      (zMat W hidden) = some (zMat W hidden) := by
  unfold spectralLayers
  induction nL with
  | zero => rfl
  | succ n ih =>
      rw [List.range_succ, List.foldl_append, ih]
      simpa using layerStep_zeroW nM hidden W hg h2 hW

/-- The single-bump input Field of shape (1, 101, 1) used in the spec's
concrete FNO1D scenario. -/
noncomputable def bumpX : RTen3 := RTen3.of 1 101 1 fun _ w _ => if w = 50 then 1 else 0

/-- C1 counterexample: with the spec's stated configuration
(hidden_channels 32, n_modes 20, d_vars 1, n_layers 4, n_steps 4) on a
(1, 101, 1) single-bump input, the FNO1D forward pass fails: the spectral
branch returns only 2*(20-1) = 38 rows, which cannot be added to the
101-row pointwise branch, so the code raises a shape error instead of
returning a (4, 101, 1) output. -/
theorem fno1d_spec_scenario_fails :
    fno1d 32 20 1 4 4 FNO1DP.zero bumpX = none := by
  have hstep : layerStep 20 32 SpecConvP.zero DenseP.zero gelu (zMat 101 32) = none := by
    unfold layerStep
    rw [spectralConv1d_zeroW 20 32 (zMat 101 32) (by norm_num) (by norm_num)]
    dsimp only
    rw [if_neg (by simp [zMat])]
  unfold fno1d
  have hmr : (mergeTC bumpX).r = 101 := rfl
  rw [show FNO1DP.zero.lift = DenseP.zero from rfl, denseApply_zero, hmr]
  have hlayers : spectralLayers 20 32 4 FNO1DP.zero.conv FNO1DP.zero.pw gelu
      (zMat 101 32) = none := by
    unfold spectralLayers
    rw [show List.range 4 = [0, 1, 2, 3] from rfl]
    simp only [List.foldl_cons, List.foldl_nil, Option.some_bind, FNO1DP.zero]
    rw [hstep]
    simp
  rw [hlayers]
  rfl

/-- C1 (amended): with n_modes = 101 = W, as the SpectralConv1d docstring
prescribes, the FNO1D forward pass on any (1, 101, 1) input returns an
output of shape (4, 101, 1), and with all parameters zero that output is
exactly the all-zeros array. -/
theorem fno1d_zero_params_all_zeros (x : RTen3)
    (h1 : x.d1 = 1) (h2 : x.d2 = 101) (h3 : x.d3 = 1) :
    fno1d 32 101 1 4 4 FNO1DP.zero x = some (RTen3.of 4 101 1 fun _ _ _ => 0) := by
  unfold fno1d
  have hmr : (mergeTC x).r = 101 := by simp [mergeTC, h2]
  rw [show FNO1DP.zero.lift = DenseP.zero from rfl, denseApply_zero, hmr]
  have hlayers : spectralLayers 101 32 4 FNO1DP.zero.conv FNO1DP.zero.pw gelu
      (zMat 101 32) = some (zMat 101 32) :=
    spectralLayers_zeroW 101 32 4 101 (by norm_num) (by norm_num) (by norm_num)
  rw [hlayers]
  simp only [Option.map_some']
  congr 1
  rw [show FNO1DP.zero.proj1 = DenseP.zero from rfl, denseApply_zero,
    show (zMat 101 32).r = 101 from rfl,
    RMat.mapE_zMat gelu gelu_zero 101 128,
    show FNO1DP.zero.proj2 = DenseP.zero from rfl, denseApply_zero,
    show (zMat 101 128).r = 101 from rfl]
  unfold splitTC
  apply RTen3_of_congr
  intro t w c _ _ _
  simp [zMat_get]

/-- C1 witness: the amended theorem applied to the concrete single-bump input. -/
theorem fno1d_zero_params_all_zeros_witness :
    fno1d 32 101 1 4 4 FNO1DP.zero bumpX = some (RTen3.of 4 101 1 fun _ _ _ => 0) :=
  fno1d_zero_params_all_zeros bumpX rfl rfl rfl

theorem spectralConv1d_isSome (nM dV : ℕ) (p : SpecConvP) (x : RMat)
    (hg : min nM ((2 * x.r - 1) / 2 + 1) = nM ∨ min nM ((2 * x.r - 1) / 2 + 1) = 1)
    (h2 : 2 ≤ nM) :
    ∃ y, spectralConv1d nM dV p x = some y := by
  have hg2 : ((rfftN .ortho (2 * x.r - 1) x).truncR nM).r = nM ∨
      ((rfftN .ortho (2 * x.r - 1) x).truncR nM).r = 1 := by
    simpa [CMat.truncR, rfftN] using hg
  unfold spectralConv1d einsum1d
  rw [if_pos hg2]
  dsimp only
  rw [if_pos h2]
  exact ⟨_, rfl⟩

/-- C5 counterexample: n_modes = 2 and W = 4 satisfy 1 <= n_modes <= W, yet
SpectralConv1d returns an output with min(2*(2-1), 4) = 2 spatial rows, not
the claimed W = 4. -/
theorem spectralConv1d_shape_claim_fails :
    (spectralConv1d 2 1 SpecConvP.zero (zMat 4 1)).map RMat.r = some 2 ∧ (2 : ℕ) ≠ 4 := by
  constructor
  · rw [spectralConv1d_zeroW 2 1 (zMat 4 1) (by norm_num) (by norm_num)]
    rfl
  · norm_num

/-- C5 (amended): for 2 <= n_modes <= W, SpectralConv1d succeeds and returns
a real output of shape (min W (2*(n_modes-1)), d_vars); its spatial extent
equals W exactly when W <= 2*(n_modes-1).  (n_modes = 1 is instead a
runtime error: the inverse transform length 2*(n_modes-1) is zero.) -/
theorem spectralConv1d_output_shape (nM dV W : ℕ) (p : SpecConvP) (x : RMat)
    (hx : x.r = W) (h2 : 2 ≤ nM) (hW : nM ≤ W) :
    ∃ y, spectralConv1d nM dV p x = some y ∧ y.r = min W (2 * (nM - 1)) ∧ y.c = dV ∧
      (y.r = W ↔ W ≤ 2 * (nM - 1)) := by
  have hbins : (2 * x.r - 1) / 2 + 1 = W := by omega
  obtain ⟨y, hy⟩ := spectralConv1d_isSome nM dV p x (by rw [hbins]; left; omega) h2
  obtain ⟨hr, hc⟩ := spectralConv1d_rows nM dV p x y hy
  refine ⟨y, hy, ?_, hc, ?_⟩
  · rw [hr, specConvOutRows, hx]
  · rw [hr, specConvOutRows, hx]
    omega

/-- C5 witness: the amended shape contract at n_modes = 3, W = 4. -/
theorem spectralConv1d_output_shape_witness :
    ∃ y, spectralConv1d 3 1 SpecConvP.zero (zMat 4 1) = some y ∧
      y.r = min 4 (2 * (3 - 1)) ∧ y.c = 1 ∧ (y.r = 4 ↔ (4 : ℕ) ≤ 2 * (3 - 1)) :=
  spectralConv1d_output_shape 3 1 4 SpecConvP.zero (zMat 4 1) rfl (by norm_num) (by norm_num)

/-- C6: evaluating the code at the failing configuration n_modes = 3 on a
W = 2 input (2 available frequency bins): the layer is constructed without
complaint and the error only surfaces inside the call, where the einsum
contraction finds 2 retained modes against 3 weight modes. -/
theorem spectralConv1d_call_time_error :
    spectralConv1d 3 1 SpecConvP.zero (zMat 2 1) = none := by
  unfold spectralConv1d einsum1d
  rw [if_neg (by norm_num [CMat.truncR, rfftN])]

/-- Scaling of a spectral weight by a real scalar k (both real and
imaginary parts scaled, as the claim prescribes). -/
def SpecConvP.smul (k : ℝ) (p : SpecConvP) : SpecConvP :=
  ⟨fun i o m => k * p.re i o m, fun i o m => k * p.im i o m⟩

/-- Entry-wise sum of two spectral weight sets. -/
def SpecConvP.addW (p q : SpecConvP) : SpecConvP :=
  ⟨fun i o m => p.re i o m + q.re i o m, fun i o m => p.im i o m + q.im i o m⟩

/-- Entry-wise real scaling of a real matrix. -/
def RMat.smulE (k : ℝ) (A : RMat) : RMat := RMat.of A.r A.c fun i j => k * A.get i j

theorem SpecConvP.cw_smul (k : ℝ) (p : SpecConvP) (i o m : ℕ) :
    (p.smul k).cw i o m = (k : ℂ) * p.cw i o m := by
  simp [SpecConvP.cw, SpecConvP.smul]
  ring

theorem SpecConvP.cw_addW (p q : SpecConvP) (i o m : ℕ) :
    (p.addW q).cw i o m = p.cw i o m + q.cw i o m := by
  simp [SpecConvP.cw, SpecConvP.addW]
  ring

theorem RMat_smulE_get (k : ℝ) (A : RMat) (i j : ℕ) :
    (A.smulE k).get i j = k * A.get i j := by
  rw [RMat.smulE, RMat_get_of]
  split
  next => rfl
  next hh => rw [RMat.get, if_neg hh, mul_zero]

theorem RMat.add2_get_of_dims (A B : RMat) (hr : B.r = A.r) (hc : B.c = A.c) (i j : ℕ) :
    (A.add2 B).get i j = A.get i j + B.get i j := by
  rw [RMat.add2, RMat_get_of]
  split
  next => rfl
  next hh =>
    rw [RMat.get, if_neg hh, RMat.get, if_neg (by rw [hr, hc]; exact hh), add_zero]

theorem hermBin_smul (k : ℝ) (r c : ℕ) (f : ℕ → ℕ → ℂ) (N j ch : ℕ) :
    hermBin (CMat.of r c fun a b => (k : ℂ) * f a b) N j ch =
      (k : ℂ) * hermBin (CMat.of r c f) N j ch := by
  unfold hermBin
  rw [CMat_get_of, CMat_get_of, CMat_get_of, CMat_get_of]
  split
  · split
    next => rfl
    next => rw [mul_zero]
  · split
    next => rw [map_mul, Complex.conj_ofReal]
    next => rw [map_zero, mul_zero]

theorem hermBin_add (r c : ℕ) (f g : ℕ → ℕ → ℂ) (N j ch : ℕ) :
    hermBin (CMat.of r c fun a b => f a b + g a b) N j ch =
      hermBin (CMat.of r c f) N j ch + hermBin (CMat.of r c g) N j ch := by
  unfold hermBin
  rw [CMat_get_of, CMat_get_of, CMat_get_of, CMat_get_of, CMat_get_of, CMat_get_of]
  split
  · split
    next => rfl
    next => rw [add_zero]
  · split
    next => rw [map_add]
    next => rw [map_zero, add_zero]

theorem irfftN_of_smul (nm : FNorm) (N r c : ℕ) (k : ℝ) (f : ℕ → ℕ → ℂ) :
    irfftN nm N (CMat.of r c fun a b => (k : ℂ) * f a b) =
      RMat.smulE k (irfftN nm N (CMat.of r c f)) := by
  unfold irfftN RMat.smulE
  apply RMat_of_congr
  intro j ch hj hch
  rw [RMat_get_of, if_pos ⟨hj, hch⟩]
  have hterm : ∀ x ∈ Finset.range N,
      hermBin (CMat.of r c fun a b => (k : ℂ) * f a b) N x ch * iker N j x =
        (k : ℂ) * (hermBin (CMat.of r c f) N x ch * iker N j x) := by
    intro x _
    rw [hermBin_smul]
    ring
  rw [Finset.sum_congr rfl hterm, ← Finset.mul_sum, Complex.mul_re, Complex.ofReal_re,
    Complex.ofReal_im]
  ring

theorem irfftN_of_add (nm : FNorm) (N r c : ℕ) (f g : ℕ → ℕ → ℂ) :
    irfftN nm N (CMat.of r c fun a b => f a b + g a b) =
      (irfftN nm N (CMat.of r c f)).add2 (irfftN nm N (CMat.of r c g)) := by
  unfold irfftN RMat.add2
  apply RMat_of_congr
  intro j ch hj hch
  rw [RMat_get_of, if_pos ⟨hj, hch⟩, RMat_get_of, if_pos ⟨hj, hch⟩]
  have hterm : ∀ x ∈ Finset.range N,
      hermBin (CMat.of r c fun a b => f a b + g a b) N x ch * iker N j x =
        hermBin (CMat.of r c f) N x ch * iker N j x +
          hermBin (CMat.of r c g) N x ch * iker N j x := by
    intro x _
    rw [hermBin_add]
    ring
  rw [Finset.sum_congr rfl hterm, Finset.sum_add_distrib, Complex.add_re]
  ring

theorem take_smulE (W : ℕ) (k : ℝ) (A : RMat) :
    (A.smulE k).take W = (A.take W).smulE k := by
  unfold RMat.take RMat.smulE
  simp only [RMat_of_r, RMat_of_c]
  apply RMat_of_congr
  intro i j hi hj
  have hiA : i < A.r := lt_of_lt_of_le hi (min_le_right W A.r)
  rw [RMat_get_of, if_pos ⟨hiA, hj⟩, RMat_get_of, if_pos ⟨hi, hj⟩]

theorem take_add2 (W : ℕ) (A B : RMat) (hr : B.r = A.r) (hc : B.c = A.c) :
    (A.add2 B).take W = (A.take W).add2 (B.take W) := by
  unfold RMat.take RMat.add2
  simp only [RMat_of_r, RMat_of_c]
  apply RMat_of_congr
  intro i j hi hj
  have hiA : i < A.r := lt_of_lt_of_le hi (min_le_right W A.r)
  rw [RMat_get_of, if_pos ⟨hiA, hj⟩, RMat_get_of, if_pos ⟨hi, hj⟩, RMat_get_of,
    if_pos ⟨by rw [hr]; exact hi, by rw [hc]; exact hj⟩]

/-- C3: for a fixed input, the SpectralConv1d output is linear in the
complex weight tensor: scaling both weight_real and weight_imag by a real
scalar k scales the output by k, and the output of the entry-wise sum of
two weight sets is the entry-wise sum of the two outputs. -/
theorem spectralConv1d_weight_linearity (nM dV : ℕ) (p q : SpecConvP) (x : RMat) (k : ℝ) :
    spectralConv1d nM dV (p.smul k) x =
      (spectralConv1d nM dV p x).map (RMat.smulE k) ∧
    spectralConv1d nM dV (p.addW q) x =
      Option.map₂ RMat.add2 (spectralConv1d nM dV p x) (spectralConv1d nM dV q x) := by
  unfold spectralConv1d einsum1d
  set T := (rfftN .ortho (2 * x.r - 1) x).truncR nM with hT
  by_cases hg : T.r = nM ∨ T.r = 1
  · rw [if_pos hg, if_pos hg, if_pos hg, if_pos hg]
    dsimp only
    by_cases h2 : 2 ≤ nM
    · rw [if_pos h2, if_pos h2, if_pos h2, if_pos h2]
      constructor
      · rw [Option.map_some']
        congr 1
        have hof : (CMat.of nM dV fun m o =>
            ∑ i ∈ Finset.range T.c, T.get (if T.r = 1 then 0 else m) i * (p.smul k).cw i o m) =
            CMat.of nM dV fun m o =>
              (k : ℂ) * ∑ i ∈ Finset.range T.c, T.get (if T.r = 1 then 0 else m) i * p.cw i o m := by
          apply CMat_of_congr
          intro m o _ _
          rw [Finset.mul_sum]
          apply Finset.sum_congr rfl
          intro i _
          rw [SpecConvP.cw_smul]
          ring
        rw [hof,
          irfftN_of_smul .ortho (2 * (nM - 1)) nM dV k
            (fun m o => ∑ i ∈ Finset.range T.c, T.get (if T.r = 1 then 0 else m) i * p.cw i o m),
          take_smulE]
      · rw [Option.map₂_some_some]
        congr 1
        have hof : (CMat.of nM dV fun m o =>
            ∑ i ∈ Finset.range T.c, T.get (if T.r = 1 then 0 else m) i * (p.addW q).cw i o m) =
            CMat.of nM dV fun m o =>
              (∑ i ∈ Finset.range T.c, T.get (if T.r = 1 then 0 else m) i * p.cw i o m) +
              ∑ i ∈ Finset.range T.c, T.get (if T.r = 1 then 0 else m) i * q.cw i o m := by
          apply CMat_of_congr
          intro m o _ _
          rw [← Finset.sum_add_distrib]
          apply Finset.sum_congr rfl
          intro i _
          rw [SpecConvP.cw_addW]
          ring
        rw [hof,
          irfftN_of_add .ortho (2 * (nM - 1)) nM dV
            (fun m o => ∑ i ∈ Finset.range T.c, T.get (if T.r = 1 then 0 else m) i * p.cw i o m)
            (fun m o => ∑ i ∈ Finset.range T.c, T.get (if T.r = 1 then 0 else m) i * q.cw i o m),
          take_add2 x.r
            (irfftN .ortho (2 * (nM - 1)) (CMat.of nM dV fun m o =>
              ∑ i ∈ Finset.range T.c, T.get (if T.r = 1 then 0 else m) i * p.cw i o m))
            (irfftN .ortho (2 * (nM - 1)) (CMat.of nM dV fun m o =>
              ∑ i ∈ Finset.range T.c, T.get (if T.r = 1 then 0 else m) i * q.cw i o m))
            rfl rfl]
    · rw [if_neg h2, if_neg h2, if_neg h2, if_neg h2]
      simp
  · rw [if_neg hg, if_neg hg, if_neg hg, if_neg hg]
    dsimp only
    simp

/-- The spectral weight whose zero-frequency mode is the identity map over
channels and whose weights at every other mode are zero. -/
def dcIdW : SpecConvP :=
  ⟨fun i o m => if m = 0 ∧ i = o then 1 else 0, fun _ _ _ => 0⟩

theorem dcIdW_cw (i o m : ℕ) :
    dcIdW.cw i o m = if m = 0 ∧ i = o then 1 else 0 := by
  simp only [SpecConvP.cw, dcIdW, Complex.ofReal_zero, zero_mul, add_zero]
  split
  next => rw [Complex.ofReal_one]
  next => rw [Complex.ofReal_zero]

theorem sum_indicator_range (M W : ℕ) (hWM : W ≤ M) (c : ℂ) :
    ∑ n ∈ Finset.range M, (if n < W then c else 0) = (W : ℂ) * c := by
  have hsub : Finset.range W ⊆ Finset.range M := Finset.range_subset.mpr hWM
  have hzero : ∀ x ∈ Finset.range M, x ∉ Finset.range W →
      (if x < W then c else 0) = 0 := by
    intro x _ hx
    rw [if_neg fun hlt => hx (Finset.mem_range.mpr hlt)]
  rw [← Finset.sum_subset hsub hzero]
  have hall : ∀ x ∈ Finset.range W, (if x < W then c else 0) = c := by
    intro x hx
    rw [if_pos (Finset.mem_range.mp hx)]
  rw [Finset.sum_congr rfl hall, Finset.sum_const, Finset.card_range, nsmul_eq_mul]

/-- Inverse transform of a spectrum holding only a (real) DC component,
cropped to W rows: the constant field scaled by the inverse ortho factor. -/
theorem take_irfft_dcOnly (W n2 nM C : ℕ) (c : ℕ → ℝ) (hnM : 0 < nM) (hn2 : 0 < n2) :
    RMat.take W (irfftN .ortho n2 (CMat.of nM C fun m o => if m = 0 then ((c o : ℝ) : ℂ) else 0)) =
      RMat.of (min W n2) C fun _ ch => (Real.sqrt (n2 : ℝ))⁻¹ * c ch := by
  unfold RMat.take
  simp only [irfftN, RMat_of_r, RMat_of_c, CMat_of_c]
  apply RMat_of_congr
  intro j ch hj hch
  rw [RMat_get_of, if_pos ⟨lt_of_lt_of_le hj (min_le_right _ _), hch⟩]
  have hsingle : ∀ k ∈ Finset.range n2, k ≠ 0 →
      hermBin (CMat.of nM C fun m o => if m = 0 then ((c o : ℝ) : ℂ) else 0) n2 k ch *
        iker n2 j k = 0 := by
    intro k hk hk0
    unfold hermBin
    split
    · rw [CMat_get_of]
      by_cases hin : k < nM ∧ ch < C
      · rw [if_pos hin, if_neg hk0, zero_mul]
      · rw [if_neg hin, zero_mul]
    · rw [CMat_get_of]
      have hksub : ¬(n2 - k = 0) := by
        have := Finset.mem_range.mp hk
        omega
      by_cases hin : n2 - k < nM ∧ ch < C
      · rw [if_pos hin, if_neg hksub, map_zero, zero_mul]
      · rw [if_neg hin, map_zero, zero_mul]
  rw [Finset.sum_eq_single_of_mem 0 (Finset.mem_range.mpr hn2) hsingle]
  unfold hermBin
  rw [if_pos (Nat.zero_le _), CMat_get_of, if_pos ⟨hnM, hch⟩, if_pos rfl,
    iker_zero_right, mul_one, Complex.ofReal_re]
  simp only [invScale]

/-- Helper: SpectralConv1d with the DC-identity weight maps the constant
field with per-channel values v to the constant field scaled by
W / (sqrt(2W-1) * sqrt(2(n_modes-1))). -/
theorem spectralConv1d_dcId_const (nM W C : ℕ) (v : ℕ → ℝ) (h2 : 2 ≤ nM) (hWn : nM ≤ W) :
    spectralConv1d nM C dcIdW (RMat.of W C fun _ ch => v ch) =
      some (RMat.of (min W (2 * (nM - 1))) C fun _ ch =>
        (Real.sqrt ((2 * (nM - 1) : ℕ) : ℝ))⁻¹ *
          ((Real.sqrt ((2 * W - 1 : ℕ) : ℝ))⁻¹ * ((W : ℝ) * v ch))) := by
  have hW1 : 1 ≤ W := by omega
  have hxr : (RMat.of W C fun _ ch => v ch).r = W := rfl
  unfold spectralConv1d einsum1d
  rw [hxr]
  set X := rfftN .ortho (2 * W - 1) (RMat.of W C fun _ ch => v ch) with hXdef
  set T := X.truncR nM with hTdef
  have hXr : X.r = W := by
    rw [hXdef]
    simp only [rfftN, CMat_of_r]
    omega
  have hXc : X.c = C := by
    rw [hXdef]
    simp only [rfftN, CMat_of_c, RMat_of_c]
  have hTr : T.r = nM := by
    rw [hTdef]
    simp only [CMat.truncR, CMat_of_r, hXr]
    omega
  have hTc : T.c = C := by
    rw [hTdef]
    simp only [CMat.truncR, CMat_of_c, hXc]
  rw [if_pos (Or.inl hTr)]
  dsimp only
  rw [if_pos h2]
  congr 1
  have hTg : ∀ o, o < C → T.get 0 o =
      (((Real.sqrt ((2 * W - 1 : ℕ) : ℝ))⁻¹ * ((W : ℝ) * v o) : ℝ) : ℂ) := by
    intro o ho
    rw [hTdef, CMat.truncR, CMat_get_of,
      if_pos ⟨by rw [hXr]; omega, by rw [hXc]; exact ho⟩]
    rw [hXdef, rfftN, CMat_get_of, if_pos ⟨by omega, by simpa using ho⟩]
    have hterm2 : ∀ nn ∈ Finset.range (2 * W - 1),
        (((RMat.of W C fun _ ch => v ch).get nn o : ℝ) : ℂ) * fker (2 * W - 1) 0 nn =
          if nn < W then ((v o : ℝ) : ℂ) else 0 := by
      intro nn _
      rw [fker_zero_left, mul_one, RMat_get_of]
      by_cases hnn : nn < W
      · rw [if_pos ⟨hnn, ho⟩, if_pos hnn]
      · rw [if_neg (fun hh => hnn hh.1), if_neg hnn, Complex.ofReal_zero]
    rw [Finset.sum_congr rfl hterm2, sum_indicator_range (2 * W - 1) W (by omega) _]
    simp only [fwdScale]
    push_cast
    ring
  have hofA : (CMat.of nM C fun m o =>
      ∑ i ∈ Finset.range T.c, T.get (if T.r = 1 then 0 else m) i * dcIdW.cw i o m) =
      CMat.of nM C fun m o => if m = 0 then
        (((Real.sqrt ((2 * W - 1 : ℕ) : ℝ))⁻¹ * ((W : ℝ) * v o) : ℝ) : ℂ) else 0 := by
    apply CMat_of_congr
    intro m o hm ho
    have hT1 : ¬T.r = 1 := by rw [hTr]; omega
    rw [if_neg hT1, hTc]
    by_cases hm0 : m = 0
    · subst hm0
      rw [if_pos rfl]
      have hterm : ∀ i ∈ Finset.range C,
          T.get 0 i * dcIdW.cw i o 0 = if i = o then T.get 0 i else 0 := by
        intro i _
        rw [dcIdW_cw]
        by_cases hio : i = o
        · rw [if_pos ⟨rfl, hio⟩, if_pos hio, mul_one]
        · rw [if_neg (fun hh => hio hh.2), if_neg hio, mul_zero]
      rw [Finset.sum_congr rfl hterm,
        Finset.sum_ite_eq' (Finset.range C) o (fun i => T.get 0 i),
        if_pos (Finset.mem_range.mpr ho), hTg o ho]
    · rw [if_neg hm0]
      refine Finset.sum_eq_zero ?_
      intro i _
      rw [dcIdW_cw, if_neg (fun hh => hm0 hh.1), mul_zero]
  rw [hofA, take_irfft_dcOnly W (2 * (nM - 1)) nM C
    (fun o => (Real.sqrt ((2 * W - 1 : ℕ) : ℝ))⁻¹ * ((W : ℝ) * v o)) (by omega) (by omega)]

/-- C8 counterexample: the constant field of value 1 on a W = 2 grid with
C = 1 channel, passed through SpectralConv1d (n_modes = 2) with the
DC-identity weight, is NOT returned unchanged: the zero-padding of the
forward transform and the default inverse length rescale the constant by
2 / (sqrt 3 * sqrt 2). -/
theorem spectralConv1d_dc_identity_fails :
    spectralConv1d 2 1 dcIdW (RMat.of 2 1 fun _ _ => 1) ≠
      some (RMat.of 2 1 fun _ _ => 1) := by
  rw [spectralConv1d_dcId_const 2 2 1 (fun _ => 1) (by norm_num) (by norm_num)]
  intro h
  have he := congrArg RMat.e (Option.some.inj h)
  have h00 := congrFun (congrFun he 0) 0
  simp only [RMat.of] at h00
  norm_num at h00
  have hs2pos : 0 < Real.sqrt 2 := Real.sqrt_pos.mpr (by norm_num)
  have hs3pos : 0 < Real.sqrt 3 := Real.sqrt_pos.mpr (by norm_num)
  have hs2 : Real.sqrt 2 ^ 2 = 2 := Real.sq_sqrt (by norm_num)
  have hs3 : Real.sqrt 3 ^ 2 = 3 := Real.sq_sqrt (by norm_num)
  have h2eq : Real.sqrt 2 * Real.sqrt 3 = 2 := by
    field_simp at h00
    linarith
  have hsq : (Real.sqrt 2 * Real.sqrt 3) ^ 2 = 6 := by
    rw [mul_pow, hs2, hs3]
    norm_num
  rw [h2eq] at hsq
  norm_num at hsq

/-- C8 (amended): a spatially constant field through SpectralConv1d with
the DC-identity weight returns a spatially constant field, but scaled by
W / (sqrt(2W-1) * sqrt(2*(n_modes-1))) rather than unchanged: the forward
transform zero-pads to 2W-1 samples while the inverse works at length
2*(n_modes-1), so the ortho normalizations do not cancel. -/
theorem spectralConv1d_dc_mode_scaled (nM W C : ℕ) (v : ℕ → ℝ)
    (h2 : 2 ≤ nM) (hWn : nM ≤ W) :
    spectralConv1d nM C dcIdW (RMat.of W C fun _ ch => v ch) =
      some (RMat.of (min W (2 * (nM - 1))) C fun _ ch =>
        (Real.sqrt ((2 * (nM - 1) : ℕ) : ℝ))⁻¹ *
          ((Real.sqrt ((2 * W - 1 : ℕ) : ℝ))⁻¹ * ((W : ℝ) * v ch))) :=
  spectralConv1d_dcId_const nM W C v h2 hWn

/-- C8 witness: the amended DC-mode statement at n_modes = 3, W = 4, a
two-channel constant field. -/
theorem spectralConv1d_dc_mode_scaled_witness :
    spectralConv1d 3 2 dcIdW (RMat.of 4 2 fun _ ch => (ch : ℝ)) =
      some (RMat.of (min 4 (2 * (3 - 1))) 2 fun _ ch =>
        (Real.sqrt ((2 * (3 - 1) : ℕ) : ℝ))⁻¹ *
          ((Real.sqrt ((2 * 4 - 1 : ℕ) : ℝ))⁻¹ * ((4 : ℝ) * (ch : ℝ)))) :=
  spectralConv1d_dc_mode_scaled 3 4 2 (fun ch => (ch : ℝ)) (by norm_num) (by norm_num)

@[simp] theorem fker_zero_right (N k : ℕ) : fker N k 0 = 1 := by
  simp [fker]

@[simp] theorem iker_zero_left (N k : ℕ) : iker N 0 k = 1 := by
  simp [iker]

/-- Complex 3-D array with explicit extents. -/
structure CTen3 where
  d1 : ℕ
  d2 : ℕ
  d3 : ℕ
  e : ℕ → ℕ → ℕ → ℂ

/-- Build a complex 3-D array, zeroing entries outside the declared extent. -/
def CTen3.of (d1 d2 d3 : ℕ) (f : ℕ → ℕ → ℕ → ℂ) : CTen3 :=
  ⟨d1, d2, d3, fun i j k => if i < d1 ∧ j < d2 ∧ k < d3 then f i j k else 0⟩

/-- Masked read of a complex 3-D array. -/
def CTen3.get (A : CTen3) (i j k : ℕ) : ℂ :=
  if i < A.d1 ∧ j < A.d2 ∧ k < A.d3 then A.e i j k else 0

@[simp] theorem CTen3_of_d1 (a b c : ℕ) (f : ℕ → ℕ → ℕ → ℂ) : (CTen3.of a b c f).d1 = a := rfl

@[simp] theorem CTen3_of_d2 (a b c : ℕ) (f : ℕ → ℕ → ℕ → ℂ) : (CTen3.of a b c f).d2 = b := rfl

@[simp] theorem CTen3_of_d3 (a b c : ℕ) (f : ℕ → ℕ → ℕ → ℂ) : (CTen3.of a b c f).d3 = c := rfl

theorem CTen3_get_of (a b c : ℕ) (f : ℕ → ℕ → ℕ → ℂ) (i j k : ℕ) :
    (CTen3.of a b c f).get i j k = if i < a ∧ j < b ∧ k < c then f i j k else 0 := by
  simp only [CTen3.get, CTen3.of]
  split <;> simp_all

theorem CTen3_of_congr (a b c : ℕ) (f g : ℕ → ℕ → ℕ → ℂ)
    (h : ∀ i j k, i < a → j < b → k < c → f i j k = g i j k) :
    CTen3.of a b c f = CTen3.of a b c g := by
  unfold CTen3.of
  congr 1
  funext i j k
  split
  next hh => exact h i j k hh.1 hh.2.1 hh.2.2
  next => rfl

/-- jnp.fft.rfft2 over the two leading spatial axes with transform sizes
(M1, M2): full transform along the first axis, real half-spectrum along the
second. -/
noncomputable def rfft2N (nm : FNorm) (M1 M2 : ℕ) (x : RTen3) : CTen3 :=
  CTen3.of M1 (M2 / 2 + 1) x.d3 fun k1 k2 c =>
    ((fwdScale nm M1 * fwdScale nm M2 : ℝ) : ℂ) *
      ∑ n1 ∈ Finset.range M1, ∑ n2 ∈ Finset.range M2,
        (x.get n1 n2 c : ℂ) * (fker M1 k1 n1 * fker M2 k2 n2)

/-- Slice X[:n] along the first axis. -/
def CTen3.sliceD1First (n : ℕ) (X : CTen3) : CTen3 :=
  CTen3.of (min n X.d1) X.d2 X.d3 X.get

/-- Slice X[-n:] along the first axis. -/
def CTen3.sliceD1Last (n : ℕ) (X : CTen3) : CTen3 :=
  CTen3.of (min n X.d1) X.d2 X.d3 fun j k c => X.get (X.d1 - min n X.d1 + j) k c

/-- Slice X[:, :n] along the second axis. -/
def CTen3.sliceD2First (n : ℕ) (X : CTen3) : CTen3 :=
  CTen3.of X.d1 (min n X.d2) X.d3 X.get

/-- Concatenation of two arrays along the first axis. -/
noncomputable def CTen3.concatD1 (A B : CTen3) : CTen3 :=
  CTen3.of (A.d1 + B.d1) A.d2 A.d3 fun j k c =>
    if j < A.d1 then A.get j k c else B.get (j - A.d1) k c

/-- Parameters of one SpectralConv2d weight block: real and imaginary
parts, indexed (in-channel, out-channel, mode1, mode2). -/
structure SpecConv2dP where
  re : ℕ → ℕ → ℕ → ℕ → ℝ
  im : ℕ → ℕ → ℕ → ℕ → ℝ

/-- The complex 2-D weight reconstituted at the point of use. -/
noncomputable def SpecConv2dP.cw (p : SpecConv2dP) (i o m1 m2 : ℕ) : ℂ :=
  (p.re i o m1 m2 : ℂ) + (p.im i o m1 m2 : ℂ) * Complex.I

/-- jnp.einsum "xyi,ioxy->xyo": contract a truncated 2-D spectrum block
with a weight block; the mode extents must match the weight's. -/
noncomputable def einsum2d (n1 n2 dO : ℕ) (p : SpecConv2dP) (X : CTen3) : Option CTen3 :=
  if X.d1 = n1 ∧ X.d2 = n2 then
    some (CTen3.of n1 n2 dO fun a b o =>
      ∑ i ∈ Finset.range X.d3, X.get a b i * p.cw i o a b)
  else none

/-- Inverse full transform along the first axis with output length n
(input cropped or zero-padded to n bins). -/
noncomputable def ifftD1 (nm : FNorm) (n : ℕ) (X : CTen3) : CTen3 :=
  CTen3.of n X.d2 X.d3 fun j k2 c =>
    ((invScale nm n : ℝ) : ℂ) * ∑ k ∈ Finset.range n, X.get k k2 c * iker n j k

/-- Bin of the hermitian extension along the second axis. -/
noncomputable def hermBin2 (X : CTen3) (n j1 k c : ℕ) : ℂ :=
  if k ≤ n / 2 then X.get j1 k c else (starRingEnd ℂ) (X.get j1 (n - k) c)

/-- Real inverse transform along the second axis with output length n. -/
noncomputable def irfftD2 (nm : FNorm) (n : ℕ) (X : CTen3) : RTen3 :=
  RTen3.of X.d1 n X.d3 fun j1 j2 c =>
    invScale nm n * (∑ k ∈ Finset.range n, hermBin2 X n j1 k c * iker n j2 k).re

/-- SpectralConv2d.__call__ with the inverse-transform normalization as a
parameter: ortho-normalized rfft2 on the input zero-padded to
(2H-1, 2W-1), the two weighted mode blocks (first n_modes1 rows and last
n_modes1 rows, each truncated to n_modes2 columns), concatenated along the
first frequency axis, then irfft2 back to (H, W). -/
noncomputable def spectralConv2dN (inm : FNorm) (n1 n2 dO : ℕ)
    (p1 p2 : SpecConv2dP) (x : RTen3) : Option RTen3 :=
  match einsum2d n1 n2 dO p1
      (((rfft2N .ortho (2 * x.d1 - 1) (2 * x.d2 - 1) x).sliceD1First n1).sliceD2First n2),
    einsum2d n1 n2 dO p2
      (((rfft2N .ortho (2 * x.d1 - 1) (2 * x.d2 - 1) x).sliceD1Last n1).sliceD2First n2) with
  | some up, some down => some (irfftD2 inm x.d2 (ifftD1 inm x.d1 (up.concatD1 down)))
  | _, _ => none

/-- SpectralConv2d.__call__ as the source writes it
(src/physmodjax/models/fno.py lines 206-248): the forward rfft2 passes
norm="ortho" but the final irfft2 passes no norm argument, so the inverse
uses numpy's default backward normalization. -/
noncomputable def spectralConv2d (n1 n2 dO : ℕ) (p1 p2 : SpecConv2dP) (x : RTen3) :
    Option RTen3 :=
  spectralConv2dN .backward n1 n2 dO p1 p2 x

/-- Spec-words variant for the refinement comparison: the same layer with
the inverse transform ortho-normalized, as section 4.1 of the spec asserts. -/
noncomputable def spectralConv2dOrtho (n1 n2 dO : ℕ) (p1 p2 : SpecConv2dP) (x : RTen3) :
    Option RTen3 :=
  spectralConv2dN .ortho n1 n2 dO p1 p2 x

/-- Entry-wise scaling of a complex 3-D array by a real scalar. -/
noncomputable def CTen3.smulRe (a : ℝ) (X : CTen3) : CTen3 :=
  CTen3.of X.d1 X.d2 X.d3 fun i j c => (a : ℂ) * X.get i j c

/-- Entry-wise scaling of a real 3-D array. -/
def RTen3.smulE (a : ℝ) (A : RTen3) : RTen3 :=
  RTen3.of A.d1 A.d2 A.d3 fun i j c => a * A.get i j c

@[simp] theorem CTen3.smulRe_d1 (a : ℝ) (X : CTen3) : (X.smulRe a).d1 = X.d1 := rfl

@[simp] theorem CTen3.smulRe_d2 (a : ℝ) (X : CTen3) : (X.smulRe a).d2 = X.d2 := rfl

@[simp] theorem CTen3.smulRe_d3 (a : ℝ) (X : CTen3) : (X.smulRe a).d3 = X.d3 := rfl

@[simp] theorem RTen3.smulE_d1 (a : ℝ) (A : RTen3) : (RTen3.smulE a A).d1 = A.d1 := rfl

@[simp] theorem RTen3.smulE_d2 (a : ℝ) (A : RTen3) : (RTen3.smulE a A).d2 = A.d2 := rfl

@[simp] theorem RTen3.smulE_d3 (a : ℝ) (A : RTen3) : (RTen3.smulE a A).d3 = A.d3 := rfl

theorem CTen3.smulRe_get (a : ℝ) (X : CTen3) (i j c : ℕ) :
    (X.smulRe a).get i j c = (a : ℂ) * X.get i j c := by
  rw [CTen3.smulRe, CTen3_get_of]
  split
  next => rfl
  next h => rw [CTen3.get, if_neg h, mul_zero]

theorem RTen3_smulE_get (a : ℝ) (A : RTen3) (i j c : ℕ) :
    (RTen3.smulE a A).get i j c = a * A.get i j c := by
  rw [RTen3.smulE, RTen3_get_of]
  split
  next => rfl
  next h => rw [RTen3.get, if_neg h, mul_zero]

theorem RTen3.smulE_smulE (a b : ℝ) (A : RTen3) :
    RTen3.smulE a (RTen3.smulE b A) = RTen3.smulE (a * b) A := by
  unfold RTen3.smulE
  simp only [RTen3_of_d1, RTen3_of_d2, RTen3_of_d3]
  apply RTen3_of_congr
  intro i j c _ _ _
  rw [RTen3_get_of]
  split
  next => ring
  next h => rw [RTen3.get, if_neg h, mul_zero, mul_zero]

/-- The inverse transform along the first axis without its normalization
factor (proof device for relating the two normalizations). -/
noncomputable def ifftD1raw (n : ℕ) (X : CTen3) : CTen3 :=
  CTen3.of n X.d2 X.d3 fun j k2 c => ∑ k ∈ Finset.range n, X.get k k2 c * iker n j k

theorem ifftD1_eq_smul (nm : FNorm) (n : ℕ) (X : CTen3) :
    ifftD1 nm n X = (ifftD1raw n X).smulRe (invScale nm n) := by
  unfold ifftD1 ifftD1raw CTen3.smulRe
  simp only [CTen3_of_d1, CTen3_of_d2, CTen3_of_d3]
  apply CTen3_of_congr
  intro j k c hj hk hc
  rw [CTen3_get_of, if_pos ⟨hj, hk, hc⟩]

theorem hermBin2_smulRe (a : ℝ) (X : CTen3) (n j1 k c : ℕ) :
    hermBin2 (X.smulRe a) n j1 k c = (a : ℂ) * hermBin2 X n j1 k c := by
  unfold hermBin2
  split
  · rw [CTen3.smulRe_get]
  · rw [CTen3.smulRe_get, map_mul, Complex.conj_ofReal]

theorem irfftD2_smulRe (nm : FNorm) (n : ℕ) (a : ℝ) (X : CTen3) :
    irfftD2 nm n (X.smulRe a) = RTen3.smulE a (irfftD2 nm n X) := by
  unfold irfftD2
  simp only [CTen3.smulRe_d1, CTen3.smulRe_d3]
  rw [RTen3.smulE]
  simp only [RTen3_of_d1, RTen3_of_d2, RTen3_of_d3]
  apply RTen3_of_congr
  intro j1 j2 c h1 h2 h3
  rw [RTen3_get_of, if_pos ⟨h1, h2, h3⟩]
  have hterm : ∀ k ∈ Finset.range n,
      hermBin2 (X.smulRe a) n j1 k c * iker n j2 k =
        (a : ℂ) * (hermBin2 X n j1 k c * iker n j2 k) := by
    intro k _
    rw [hermBin2_smulRe]
    ring
  rw [Finset.sum_congr rfl hterm, ← Finset.mul_sum, Complex.mul_re, Complex.ofReal_re,
    Complex.ofReal_im]
  ring

theorem sqrt_inv_eq_sqrt_mul_inv (n : ℕ) (hn : 1 ≤ n) :
    (Real.sqrt (n : ℝ))⁻¹ = Real.sqrt (n : ℝ) * ((n : ℝ))⁻¹ := by
  have hss : Real.sqrt (n : ℝ) * Real.sqrt (n : ℝ) = (n : ℝ) :=
    Real.mul_self_sqrt (by positivity)
  have hpos : (0 : ℝ) < Real.sqrt (n : ℝ) :=
    Real.sqrt_pos.mpr (by exact_mod_cast hn)
  have hnpos : (0 : ℝ) < (n : ℝ) := by exact_mod_cast hn
  field_simp

theorem irfftD2_ortho_eq (n : ℕ) (hn : 1 ≤ n) (X : CTen3) :
    irfftD2 .ortho n X = RTen3.smulE (Real.sqrt (n : ℝ)) (irfftD2 .backward n X) := by
  unfold irfftD2
  rw [RTen3.smulE]
  simp only [RTen3_of_d1, RTen3_of_d2, RTen3_of_d3]
  apply RTen3_of_congr
  intro j1 j2 c h1 h2 h3
  rw [RTen3_get_of, if_pos ⟨h1, h2, h3⟩]
  simp only [invScale]
  rw [sqrt_inv_eq_sqrt_mul_inv n hn]
  ring

/-- The normalization discrepancy of the 2-D spectral layer: replacing the
source's default (backward) inverse normalization by the ortho
normalization the spec asserts multiplies every output by sqrt(H*W). -/
theorem spectralConv2dN_ortho_smul (n1 n2 dO : ℕ) (p1 p2 : SpecConv2dP) (x : RTen3)
    (hH : 1 ≤ x.d1) (hW : 1 ≤ x.d2) :
    spectralConv2dN .ortho n1 n2 dO p1 p2 x =
      (spectralConv2dN .backward n1 n2 dO p1 p2 x).map
        (RTen3.smulE (Real.sqrt ((x.d1 * x.d2 : ℕ) : ℝ))) := by
  have hc : invScale .ortho x.d1 * Real.sqrt (x.d2 : ℝ) =
      Real.sqrt ((x.d1 * x.d2 : ℕ) : ℝ) * invScale .backward x.d1 := by
    simp only [invScale]
    rw [Nat.cast_mul, Real.sqrt_mul (by positivity), sqrt_inv_eq_sqrt_mul_inv x.d1 hH]
    ring
  unfold spectralConv2dN
  cases hup : einsum2d n1 n2 dO p1
      (((rfft2N .ortho (2 * x.d1 - 1) (2 * x.d2 - 1) x).sliceD1First n1).sliceD2First n2) with
  | none =>
      cases hdown : einsum2d n1 n2 dO p2
          (((rfft2N .ortho (2 * x.d1 - 1) (2 * x.d2 - 1) x).sliceD1Last n1).sliceD2First n2) with
      | none => rfl
      | some down => rfl
  | some up =>
      cases hdown : einsum2d n1 n2 dO p2
          (((rfft2N .ortho (2 * x.d1 - 1) (2 * x.d2 - 1) x).sliceD1Last n1).sliceD2First n2) with
      | none => rfl
      | some down =>
          dsimp only
          rw [Option.map_some']
          congr 1
          rw [ifftD1_eq_smul .ortho, ifftD1_eq_smul .backward, irfftD2_smulRe,
            irfftD2_smulRe, irfftD2_ortho_eq x.d2 hW, RTen3.smulE_smulE,
            RTen3.smulE_smulE, hc]

theorem einsum2d_pos (n1 n2 dO : ℕ) (p : SpecConv2dP) (X : CTen3)
    (h : X.d1 = n1 ∧ X.d2 = n2) :
    einsum2d n1 n2 dO p X = some (CTen3.of n1 n2 dO fun a b o =>
      ∑ i ∈ Finset.range X.d3, X.get a b i * p.cw i o a b) := by
  unfold einsum2d
  rw [if_pos h]

/-- The concrete 2-D input used to exhibit the normalization discrepancy:
shape (2, 1, 1), value 1 at the first grid point, 0 at the second. -/
noncomputable def x2d : RTen3 := RTen3.of 2 1 1 fun i _ _ => if i = 0 then 1 else 0

/-- The all-ones first weight block. -/
def oneW2 : SpecConv2dP := ⟨fun _ _ _ _ => 1, fun _ _ _ _ => 0⟩

/-- The all-zero second weight block. -/
def zeroW2 : SpecConv2dP := ⟨fun _ _ _ _ => 0, fun _ _ _ _ => 0⟩

theorem oneW2_cw (i o a b : ℕ) : oneW2.cw i o a b = 1 := by
  simp [SpecConv2dP.cw, oneW2]

theorem zeroW2_cw (i o a b : ℕ) : zeroW2.cw i o a b = 0 := by
  simp [SpecConv2dP.cw, zeroW2]

theorem x2d_rfft_entry (k1 : ℕ) (hk1 : k1 < 3) :
    (rfft2N .ortho 3 1 x2d).get k1 0 0 = ((Real.sqrt 3)⁻¹ : ℝ) := by
  rw [rfft2N, CTen3_get_of]
  rw [if_pos ⟨hk1, by norm_num, by norm_num [x2d]⟩]
  have hsum : ∀ n1 ∈ Finset.range 3,
      (∑ n2 ∈ Finset.range 1, (x2d.get n1 n2 0 : ℂ) * (fker 3 k1 n1 * fker 1 0 n2)) =
        if n1 = 0 then fker 3 k1 0 else 0 := by
    intro n1 _
    rw [Finset.sum_range_one, fker_zero_left, mul_one]
    by_cases hn1 : n1 = 0
    · subst hn1
      rw [x2d, RTen3_get_of, if_pos ⟨by norm_num, by norm_num, by norm_num⟩, if_pos rfl]
      simp
    · have hx0 : x2d.get n1 0 0 = 0 := by
        rw [x2d, RTen3_get_of]
        split <;> simp [hn1]
      rw [hx0, if_neg hn1, Complex.ofReal_zero, zero_mul]
  rw [Finset.sum_congr rfl hsum, Finset.sum_ite_eq' (Finset.range 3) 0 (fun n1 => fker 3 k1 0),
    if_pos (by norm_num : (0 : ℕ) ∈ Finset.range 3), fker_zero_right]
  simp only [fwdScale, Nat.cast_ofNat, Nat.cast_one, Real.sqrt_one, inv_one, mul_one]

/-- The weighted up-block of the concrete 2-D evaluation. -/
noncomputable def UPblk : CTen3 :=
  CTen3.of 1 1 1 fun a b o =>
    ∑ i ∈ Finset.range (((rfft2N .ortho 3 1 x2d).sliceD1First 1).sliceD2First 1).d3,
      (((rfft2N .ortho 3 1 x2d).sliceD1First 1).sliceD2First 1).get a b i * oneW2.cw i o a b

/-- The weighted down-block of the concrete 2-D evaluation. -/
noncomputable def DOWNblk : CTen3 :=
  CTen3.of 1 1 1 fun a b o =>
    ∑ i ∈ Finset.range (((rfft2N .ortho 3 1 x2d).sliceD1Last 1).sliceD2First 1).d3,
      (((rfft2N .ortho 3 1 x2d).sliceD1Last 1).sliceD2First 1).get a b i * zeroW2.cw i o a b

@[simp] theorem concatD1_d1 (A B : CTen3) : (A.concatD1 B).d1 = A.d1 + B.d1 := rfl

@[simp] theorem concatD1_d2 (A B : CTen3) : (A.concatD1 B).d2 = A.d2 := rfl

@[simp] theorem concatD1_d3 (A B : CTen3) : (A.concatD1 B).d3 = A.d3 := rfl

@[simp] theorem UPblk_d1 : UPblk.d1 = 1 := rfl

@[simp] theorem UPblk_d2 : UPblk.d2 = 1 := rfl

@[simp] theorem UPblk_d3 : UPblk.d3 = 1 := rfl

@[simp] theorem DOWNblk_d1 : DOWNblk.d1 = 1 := rfl

@[simp] theorem DOWNblk_d2 : DOWNblk.d2 = 1 := rfl

@[simp] theorem DOWNblk_d3 : DOWNblk.d3 = 1 := rfl

theorem UPblk_entry : UPblk.get 0 0 0 = ((Real.sqrt 3)⁻¹ : ℝ) := by
  rw [UPblk, CTen3_get_of, if_pos ⟨by norm_num, by norm_num, by norm_num⟩]
  rw [show (((rfft2N .ortho 3 1 x2d).sliceD1First 1).sliceD2First 1).d3 = 1 from rfl,
    Finset.sum_range_one, oneW2_cw, mul_one]
  rw [CTen3.sliceD2First, CTen3_get_of, if_pos ⟨by norm_num [CTen3.sliceD1First, rfft2N],
    by norm_num [CTen3.sliceD1First, rfft2N], by norm_num [CTen3.sliceD1First, rfft2N, x2d]⟩]
  rw [CTen3.sliceD1First, CTen3_get_of, if_pos ⟨by norm_num [rfft2N],
    by norm_num [rfft2N], by norm_num [rfft2N, x2d]⟩]
  exact x2d_rfft_entry 0 (by norm_num)

theorem DOWNblk_entry (a b o : ℕ) : DOWNblk.get a b o = 0 := by
  rw [DOWNblk, CTen3_get_of]
  split
  next =>
    refine Finset.sum_eq_zero ?_
    intro i _
    rw [zeroW2_cw, mul_zero]
  next => rfl

theorem concat_blk_entry0 : (UPblk.concatD1 DOWNblk).get 0 0 0 = ((Real.sqrt 3)⁻¹ : ℝ) := by
  rw [CTen3.concatD1, CTen3_get_of,
    if_pos ⟨by norm_num [UPblk, DOWNblk], by norm_num [UPblk], by norm_num [UPblk]⟩,
    if_pos (by norm_num [UPblk] : (0 : ℕ) < UPblk.d1)]
  exact UPblk_entry

theorem concat_blk_entry1 : (UPblk.concatD1 DOWNblk).get 1 0 0 = 0 := by
  rw [CTen3.concatD1, CTen3_get_of]
  split
  next =>
    rw [if_neg (by norm_num [UPblk] : ¬(1 : ℕ) < UPblk.d1)]
    exact DOWNblk_entry _ _ _
  next => rfl

/-- Evaluation of the source 2-D layer (backward-normalized inverse) at the
concrete input: the first output entry is 1/(2*sqrt 3). -/
theorem conv2d_backward_eval :
    ∃ A, spectralConv2dN .backward 1 1 1 oneW2 zeroW2 x2d = some A ∧
      A.get 0 0 0 = 2⁻¹ * (Real.sqrt 3)⁻¹ := by
  unfold spectralConv2dN
  rw [show (2 * x2d.d1 - 1 : ℕ) = 3 from rfl, show (2 * x2d.d2 - 1 : ℕ) = 1 from rfl]
  rw [show einsum2d 1 1 1 oneW2 (((rfft2N .ortho 3 1 x2d).sliceD1First 1).sliceD2First 1) =
      some UPblk from einsum2d_pos 1 1 1 oneW2 _ ⟨rfl, rfl⟩]
  rw [show einsum2d 1 1 1 zeroW2 (((rfft2N .ortho 3 1 x2d).sliceD1Last 1).sliceD2First 1) =
      some DOWNblk from einsum2d_pos 1 1 1 zeroW2 _ ⟨rfl, rfl⟩]
  dsimp only
  refine ⟨_, rfl, ?_⟩
  rw [show x2d.d2 = 1 from rfl, show x2d.d1 = 2 from rfl]
  rw [irfftD2, RTen3_get_of,
    if_pos ⟨by simp [ifftD1], by norm_num, by simp [ifftD1]⟩]
  rw [Finset.sum_range_one, iker_zero_left, mul_one]
  rw [show hermBin2 (ifftD1 .backward 2 (UPblk.concatD1 DOWNblk)) 1 0 0 0 =
      (ifftD1 .backward 2 (UPblk.concatD1 DOWNblk)).get 0 0 0 from by
    rw [hermBin2, if_pos (Nat.zero_le _)]]
  rw [ifftD1, CTen3_get_of,
    if_pos ⟨by norm_num, by simp, by simp⟩]
  rw [Finset.sum_range_succ, Finset.sum_range_one, iker_zero_left, iker_zero_left,
    mul_one, mul_one, concat_blk_entry0, concat_blk_entry1, add_zero]
  simp only [invScale, Complex.mul_re, Complex.ofReal_re, Complex.ofReal_im, Complex.mul_im]
  norm_num

/-- C4 counterexample: at the concrete (2, 1, 1) input with first weight
block 1 and second weight block 0, the output of the source SpectralConv2d
differs from the output of the variant whose inverse transform is
ortho-normalized, so the 2-D layer does not use the same ortho
normalization for forward and inverse transforms. -/
theorem spectralConv2d_ortho_claim_fails :
    spectralConv2dOrtho 1 1 1 oneW2 zeroW2 x2d ≠ spectralConv2d 1 1 1 oneW2 zeroW2 x2d := by
  obtain ⟨A, hA, hval⟩ := conv2d_backward_eval
  rw [spectralConv2dOrtho, spectralConv2d, spectralConv2dN_ortho_smul 1 1 1 oneW2 zeroW2 x2d
    (by norm_num [x2d]) (by norm_num [x2d]), hA, Option.map_some']
  intro h
  have h3 := congrArg (fun T => RTen3.get T 0 0 0) (Option.some.inj h)
  simp only [RTen3_smulE_get] at h3
  rw [hval] at h3
  have hcast : ((x2d.d1 * x2d.d2 : ℕ) : ℝ) = 2 := by norm_num [x2d]
  rw [hcast] at h3
  have hs3pos : 0 < Real.sqrt 3 := Real.sqrt_pos.mpr (by norm_num)
  have hv : (2⁻¹ * (Real.sqrt 3)⁻¹ : ℝ) ≠ 0 := by positivity
  have h1 : Real.sqrt 2 = 1 := by
    have h4 : Real.sqrt 2 * (2⁻¹ * (Real.sqrt 3)⁻¹) = 1 * (2⁻¹ * (Real.sqrt 3)⁻¹) := by
      rw [one_mul]
      exact h3
    exact mul_right_cancel₀ hv h4
  have hs2 : Real.sqrt 2 ^ 2 = 2 := Real.sq_sqrt (by norm_num)
  rw [h1] at hs2
  norm_num at hs2

/-- C4 (amended): SpectralConv1d does use ortho normalization for both its
forward and inverse transforms, but SpectralConv2d passes no norm argument
to the inverse irfft2, which therefore uses numpy's default backward
normalization; replacing it by the ortho inverse the spec asserts
multiplies every output entry by sqrt(H*W). -/
theorem spectralConv2d_backward_inverse (n1 n2 dO : ℕ) (p1 p2 : SpecConv2dP) (x : RTen3)
    (hH : 1 ≤ x.d1) (hW : 1 ≤ x.d2) :
    spectralConv2dOrtho n1 n2 dO p1 p2 x =
      (spectralConv2d n1 n2 dO p1 p2 x).map
        (RTen3.smulE (Real.sqrt ((x.d1 * x.d2 : ℕ) : ℝ))) :=
  spectralConv2dN_ortho_smul n1 n2 dO p1 p2 x hH hW

/-- C4 witness: the amended statement at the concrete (2, 1, 1) input. -/
theorem spectralConv2d_backward_inverse_witness :
    spectralConv2dOrtho 1 1 1 oneW2 zeroW2 x2d =
      (spectralConv2d 1 1 1 oneW2 zeroW2 x2d).map
        (RTen3.smulE (Real.sqrt ((x2d.d1 * x2d.d2 : ℕ) : ℝ))) :=
  spectralConv2d_backward_inverse 1 1 1 oneW2 zeroW2 x2d (by norm_num [x2d]) (by norm_num [x2d])

/-- numpy 1-D broadcasting addition of two complex vectors: the lengths
must agree, or one of them must be 1 (which is then broadcast); any other
mismatch is an error. -/
def bcastAdd (a b : List ℂ) : Option (List ℂ) :=
  if a.length = b.length then some (List.zipWith (fun x y => x + y) a b)
  else if a.length = 1 then some (b.map fun y => a.getD 0 0 + y)
  else if b.length = 1 then some (a.map fun x => x + b.getD 0 0)
  else none

/-- The complex split z[: n//2] + 1j * z[n//2 :] performed by the Koopman
advance methods (autoencoders.py lines 154, 260, 332), with JAX
broadcasting semantics for the addition. -/
def complexSplit (z : List ℝ) : Option (List ℂ) :=
  bcastAdd ((z.take (z.length / 2)).map Complex.ofReal)
    ((z.drop (z.length / 2)).map fun r => Complex.ofReal r * Complex.I)

/-- advance of KoopmanAutoencoder1D (and the 2D/Dense variants): split the
real latent vector into complex form, run the dynamics for n_steps, and
concatenate real and imaginary parts of each resulting vector. -/
def advanceK (dyn : List ℂ → ℕ → List (List ℂ)) (nSteps : ℕ) (z : List ℝ) :
    Option (List (List ℝ)) :=
  (complexSplit z).map fun zc =>
    (dyn zc nSteps).map fun w => w.map Complex.re ++ w.map Complex.im

/-- advance of KoopmanAutoencoder1DReal: z + 1j*0.0, dynamics, then take
the real part only. -/
def advanceKReal (dyn : List ℂ → ℕ → List (List ℂ)) (nSteps : ℕ) (z : List ℝ) :
    List (List ℝ) :=
  (dyn (z.map Complex.ofReal) nSteps).map fun w => w.map Complex.re

/-- Application of a (row-major) complex matrix to a complex vector. -/
def applyMat (A : List (List ℂ)) (v : List ℂ) : List ℂ :=
  A.map fun row => (List.zipWith (fun x y => x * y) row v).sum

/-- Modelled from the spec: the LRUDynamics propagator (models/recurrent.py
is not under src/).  Section 4.4: "Apply a linear recurrent dynamics
operator once per step, accumulating a Trajectory of T complex
LatentVectors" — a single fixed learned linear map applied repeatedly. -/
def lruDynamics (A : List (List ℂ)) (z : List ℂ) (T : ℕ) : List (List ℂ) :=
  (List.range T).map fun t => (applyMat A)^[t + 1] z

/-- The C7 claim's formula: form the complex vector z[0:n/2] + i*z[n/2:n]
from the exact halves, apply the dynamics t+1 times for step t, and
concatenate real and imaginary parts of each resulting vector. -/
def specAdvanceFormula (A : List (List ℂ)) (T : ℕ) (z : List ℝ) : List (List ℝ) :=
  (List.range T).map fun t =>
    let w := (applyMat A)^[t + 1]
      (List.zipWith (fun a b => Complex.ofReal a + Complex.ofReal b * Complex.I)
        (z.take (z.length / 2)) (z.drop (z.length / 2)))
    w.map Complex.re ++ w.map Complex.im

theorem complexSplit_even (z : List ℝ) (m : ℕ) (hz : z.length = 2 * m) :
    complexSplit z = some (List.zipWith (fun a b => Complex.ofReal a + Complex.ofReal b * Complex.I)
      (z.take (z.length / 2)) (z.drop (z.length / 2))) := by
  unfold complexSplit bcastAdd
  have hlen : ((z.take (z.length / 2)).map Complex.ofReal).length =
      ((z.drop (z.length / 2)).map fun r => Complex.ofReal r * Complex.I).length := by
    rw [List.length_map, List.length_map, List.length_take, List.length_drop, hz]
    omega
  rw [if_pos hlen]
  congr 1
  rw [List.zipWith_map (fun x y => x + y) Complex.ofReal
    (fun r : ℝ => Complex.ofReal r * Complex.I) (z.take (z.length / 2)) (z.drop (z.length / 2))]

theorem applyMat_length (A : List (List ℂ)) (v : List ℂ) :
    (applyMat A v).length = A.length := by
  simp [applyMat]

theorem applyMat_iterate_length (A : List (List ℂ)) (v : List ℂ) (t : ℕ) :
    ((applyMat A)^[t + 1] v).length = A.length := by
  rw [Function.iterate_succ_apply', applyMat_length]

/-- C10 counterexample: at the odd latent length 3, the two slices have
lengths 1 and 2, which NumPy broadcasting accepts (size-1 broadcast): the
complex split does not fail — it silently yields the length-2 vector
[0 + 1i, 0 + 2i]. -/
theorem complexSplit_odd3_succeeds :
    complexSplit [0, 1, 2] = some [Complex.I, 2 * Complex.I] ∧ (3 : ℕ) % 2 = 1 := by
  constructor
  · unfold complexSplit bcastAdd
    norm_num
  · rfl

/-- C10 (amended): the complex split of the Koopman advance fails exactly
for odd latent lengths n >= 5; even lengths n = 2m succeed with a length-m
complex vector, and the degenerate odd lengths n = 1 and n = 3 do not fail
but silently broadcast (yielding lengths 0 and 2 respectively). -/
theorem complexSplit_parity (z : List ℝ) :
    (complexSplit z = none ↔ (z.length % 2 = 1 ∧ 5 ≤ z.length)) ∧
    (∀ m, z.length = 2 * m → ∃ w, complexSplit z = some w ∧ w.length = m) := by
  constructor
  · unfold complexSplit bcastAdd
    rw [List.length_map, List.length_map, List.length_take, List.length_drop]
    split_ifs with h1 h2 h3 <;> simp <;> omega
  · intro m hz
    refine ⟨_, complexSplit_even z m hz, ?_⟩
    rw [List.length_zipWith, List.length_take, List.length_drop, hz]
    omega

/-- C10 witness: the even case at the concrete latent vector [1, 2, 3, 4]
(length 4 = 2*2), and the failing case at [1, 2, 3, 4, 5]. -/
theorem complexSplit_parity_witness :
    (∃ w, complexSplit [1, 2, 3, 4] = some w ∧ w.length = 2) ∧
      complexSplit [(1 : ℝ), 2, 3, 4, 5] = none := by
  constructor
  · exact (complexSplit_parity [1, 2, 3, 4]).2 2 rfl
  · exact (complexSplit_parity [(1 : ℝ), 2, 3, 4, 5]).1.mpr (by norm_num)

/-- C7: for an even-length latent vector z (length 2m) and an m-dimensional
dynamics matrix A, the advance wrapper returns exactly the (T, 2m) array of
the claim's formula: complex vector z[0:m] + i*z[m:2m], dynamics applied
once per step, real and imaginary parts concatenated; the real-only variant
with an n-dimensional matrix B returns the (T, n) array of real parts of
the dynamics applied to z + 0i. -/
theorem advanceK_spec (A B : List (List ℂ)) (m T : ℕ) (z : List ℝ)
    (hz : z.length = 2 * m) (hA : A.length = m) (hB : B.length = z.length) :
    advanceK (lruDynamics A) T z = some (specAdvanceFormula A T z) ∧
    (specAdvanceFormula A T z).length = T ∧
    (∀ r ∈ specAdvanceFormula A T z, r.length = 2 * m) ∧
    advanceKReal (lruDynamics B) T z = ((List.range T).map fun t =>
      ((applyMat B)^[t + 1] (z.map Complex.ofReal)).map Complex.re) ∧
    (∀ r ∈ advanceKReal (lruDynamics B) T z, r.length = z.length) := by
  refine ⟨?_, ?_, ?_, ?_, ?_⟩
  · rw [advanceK, complexSplit_even z m hz, Option.map_some']
    congr 1
    unfold lruDynamics specAdvanceFormula
    rw [List.map_map]
    apply List.map_congr_left
    intro t _
    rfl
  · simp [specAdvanceFormula]
  · intro r hr
    unfold specAdvanceFormula at hr
    simp only [List.mem_map] at hr
    obtain ⟨t, _, hrt⟩ := hr
    rw [← hrt]
    simp only [List.length_append, List.length_map, applyMat_iterate_length, hA]
    omega
  · unfold advanceKReal lruDynamics
    rw [List.map_map]
    apply List.map_congr_left
    intro t _
    rfl
  · intro r hr
    unfold advanceKReal lruDynamics at hr
    simp only [List.map_map, List.mem_map] at hr
    obtain ⟨t, _, hrt⟩ := hr
    rw [← hrt]
    simp only [Function.comp, List.length_map, applyMat_iterate_length, hB]

/-- C7 witness: the advance formula at the concrete latent vector [1, 2]
with the 1x1 dynamics matrix [[i]] (and [[1,0],[0,1]] for the real-only
variant), over 2 steps. -/
theorem advanceK_spec_witness :
    advanceK (lruDynamics [[Complex.I]]) 2 [1, 2] =
      some (specAdvanceFormula [[Complex.I]] 2 [1, 2]) ∧
    (specAdvanceFormula [[Complex.I]] 2 [1, 2]).length = 2 ∧
    (∀ r ∈ specAdvanceFormula [[Complex.I]] 2 [1, 2], r.length = 2 * 1) ∧
    advanceKReal (lruDynamics [[1, 0], [0, 1]]) 2 [1, 2] = ((List.range 2).map fun t =>
      ((applyMat [[1, 0], [0, 1]])^[t + 1] (([1, 2] : List ℝ).map Complex.ofReal)).map
        Complex.re) ∧
    (∀ r ∈ advanceKReal (lruDynamics [[1, 0], [0, 1]]) 2 [1, 2],
      r.length = ([1, 2] : List ℝ).length) :=
  advanceK_spec [[Complex.I]] [[1, 0], [0, 1]] 1 2 [1, 2] rfl rfl rfl

/-- Real 4-D array (e.g. a Field trajectory (T, H, W, C)) with explicit
extents. -/
structure RTen4 where
  d1 : ℕ
  d2 : ℕ
  d3 : ℕ
  d4 : ℕ
  e : ℕ → ℕ → ℕ → ℕ → ℝ

/-- Build a real 4-D array, zeroing entries outside the declared extent. -/
def RTen4.of (a b c d : ℕ) (f : ℕ → ℕ → ℕ → ℕ → ℝ) : RTen4 :=
  ⟨a, b, c, d, fun i j k l => if i < a ∧ j < b ∧ k < c ∧ l < d then f i j k l else 0⟩

/-- Masked read of a real 4-D array. -/
def RTen4.get (A : RTen4) (i j k l : ℕ) : ℝ :=
  if i < A.d1 ∧ j < A.d2 ∧ k < A.d3 ∧ l < A.d4 then A.e i j k l else 0

theorem RTen4_get_of (a b c d : ℕ) (f : ℕ → ℕ → ℕ → ℕ → ℝ) (i j k l : ℕ) :
    (RTen4.of a b c d f).get i j k l =
      if i < a ∧ j < b ∧ k < c ∧ l < d then f i j k l else 0 := by
  simp only [RTen4.get, RTen4.of]
  split <;> simp_all

/-- The first time slice x[0] of a (T, W, C) trajectory. -/
def frame0 (x : RTen3) : RMat := RMat.of x.d2 x.d3 fun w c => x.get 0 w c

/-- The first time slice x[0] of a (T, H, W, C) trajectory. -/
def frame04 (x : RTen4) : RTen3 := RTen3.of x.d2 x.d3 x.d4 fun a b c => x.get 0 a b c

/-- einops "w c -> (w c)" flatten of a Field slice into a latent list. -/
def flattenRM (A : RMat) : List ℝ :=
  (List.range (A.r * A.c)).map fun j => A.get (j / A.c) (j % A.c)

/-- einops "w h c -> (w h c)" flatten of a rank-3 Field slice. -/
def flattenRT3 (A : RTen3) : List ℝ :=
  (List.range (A.d1 * A.d2 * A.d3)).map fun j =>
    A.get (j / (A.d2 * A.d3)) (j / A.d3 % A.d2) (j % A.d3)

/-- einops "t (w c) -> t w c" of a list of latent rows. -/
def rowsToRTen3 (dModel dVars : ℕ) (rows : List (List ℝ)) : RTen3 :=
  RTen3.of rows.length dModel dVars fun t w c => (rows.getD t []).getD (w * dVars + c) 0

/-- einops "t (w h c) -> t w h c" of a list of latent rows. -/
def rowsToRTen4 (a b c : ℕ) (rows : List (List ℝ)) : RTen4 :=
  RTen4.of rows.length a b c fun t i j k => (rows.getD t []).getD (i * (b * c) + j * c + k) 0

/-- Concatenation of a positional grid onto the channel axis. -/
def concatCh (x g : RTen3) : RTen3 :=
  RTen3.of x.d1 x.d2 (x.d3 + g.d3) fun i j k =>
    if k < x.d3 then x.get i j k else g.get i j (k - x.d3)

/-- KoopmanAutoencoder1D.__call__ (autoencoders.py lines 296-304):
encode the FIRST timestep x[0] (flattened "w c -> (w c)", then the learned
encoder), advance it, decode every advanced row and reshape to
(T, d_model, d_vars).  The encoder, decoder and dynamics submodules are
constructor parameters of the flax module and are therefore abstract
functions here. -/
def koopman1dCall (enc : List ℝ → List ℝ) (dec : List (List ℝ) → List (List ℝ))
    (dyn : List ℂ → ℕ → List (List ℂ)) (dModel dVars nSteps : ℕ) (x : RTen3) :
    Option RTen3 :=
  (advanceK dyn nSteps (enc (flattenRM (frame0 x)))).map fun rows =>
    rowsToRTen3 dModel dVars (dec rows)

/-- KoopmanAutoencoder1DReal.__call__ (autoencoders.py lines 367-375):
as koopman1dCall but with the real-only advance, which never fails. -/
def koopman1dRealCall (enc : List ℝ → List ℝ) (dec : List (List ℝ) → List (List ℝ))
    (dyn : List ℂ → ℕ → List (List ℂ)) (dModel dVars nSteps : ℕ) (x : RTen3) : RTen3 :=
  rowsToRTen3 dModel dVars (dec (advanceKReal dyn nSteps (enc (flattenRM (frame0 x)))))

/-- KoopmanAutoencoder2D.__call__ (autoencoders.py lines 212-220): the
convolutional encoder maps the first frame x[0] to a rank-3 latent which is
flattened "h w c -> (h w c)"; after the advance every row is reshaped to
the latent dims and handed to the convolutional decoder. -/
def koopman2dCall (enc2 : RTen3 → RTen3) (dec2 : RTen4 → RTen4)
    (dyn : List ℂ → ℕ → List (List ℂ)) (lh lw lc nSteps : ℕ) (x : RTen4) :
    Option RTen4 :=
  (advanceK dyn nSteps (flattenRT3 (enc2 (frame04 x)))).map fun rows =>
    dec2 (rowsToRTen4 lh lw lc rows)

/-- DenseKoopmanAutoencoder2D.__call__ (autoencoders.py lines 128-134):
the first frame x[0] (optionally with the positional grid concatenated
onto its channels) is flattened and sent through the dense encoder; the
decoder maps the advanced rows back before the reshape to
(T, d_model[0], d_model[1], d_vars). -/
def denseKoopman2dCall (usePos : Bool) (g : RTen3) (enc : List ℝ → List ℝ)
    (dec : List (List ℝ) → List (List ℝ)) (dyn : List ℂ → ℕ → List (List ℂ))
    (dW dH dVars nSteps : ℕ) (x : RTen4) : Option RTen4 :=
  (advanceK dyn nSteps
      (enc (flattenRT3 (if usePos then concatCh (frame04 x) g else frame04 x)))).map
    fun rows => rowsToRTen4 dW dH dVars (dec rows)

/-- C9: every Koopman autoencoder full forward pass depends only on the
first timestep of its input trajectory: two inputs with equal first frames
produce identical outputs under the same (arbitrary) encoder, decoder and
dynamics parameters, whatever their later timesteps hold. -/
theorem koopman_calls_first_frame_only
    (enc : List ℝ → List ℝ) (dec : List (List ℝ) → List (List ℝ))
    (enc2 : RTen3 → RTen3) (dec2 : RTen4 → RTen4)
    (dyn : List ℂ → ℕ → List (List ℂ)) (usePos : Bool) (g : RTen3)
    (dModel dVars nSteps lh lw lc : ℕ)
    (x x' : RTen3) (y y' : RTen4)
    (hx : frame0 x = frame0 x') (hy : frame04 y = frame04 y') :
    koopman1dCall enc dec dyn dModel dVars nSteps x =
      koopman1dCall enc dec dyn dModel dVars nSteps x' ∧
    koopman1dRealCall enc dec dyn dModel dVars nSteps x =
      koopman1dRealCall enc dec dyn dModel dVars nSteps x' ∧
    koopman2dCall enc2 dec2 dyn lh lw lc nSteps y =
      koopman2dCall enc2 dec2 dyn lh lw lc nSteps y' ∧
    denseKoopman2dCall usePos g enc dec dyn dModel dModel dVars nSteps y =
      denseKoopman2dCall usePos g enc dec dyn dModel dModel dVars nSteps y' := by
  refine ⟨?_, ?_, ?_, ?_⟩
  · unfold koopman1dCall
    rw [hx]
  · unfold koopman1dRealCall
    rw [hx]
  · unfold koopman2dCall
    rw [hy]
  · unfold denseKoopman2dCall
    rw [hy]

/-- C9 witness: two concrete trajectory pairs that differ only at time
index 1, with identity submodules and a replicate dynamics. -/
theorem koopman_calls_first_frame_only_witness :
    (koopman1dCall (fun z => z) (fun r => r) (fun zc T => List.replicate T zc) 1 1 1
        (RTen3.of 2 1 1 fun t _ _ => if t = 1 then 5 else 0) =
      koopman1dCall (fun z => z) (fun r => r) (fun zc T => List.replicate T zc) 1 1 1
        (RTen3.of 2 1 1 fun _ _ _ => 0)) ∧
    (koopman1dRealCall (fun z => z) (fun r => r) (fun zc T => List.replicate T zc) 1 1 1
        (RTen3.of 2 1 1 fun t _ _ => if t = 1 then 5 else 0) =
      koopman1dRealCall (fun z => z) (fun r => r) (fun zc T => List.replicate T zc) 1 1 1
        (RTen3.of 2 1 1 fun _ _ _ => 0)) ∧
    (koopman2dCall (fun t => t) (fun t => t) (fun zc T => List.replicate T zc) 1 1 1 1
        (RTen4.of 2 1 1 1 fun t _ _ _ => if t = 1 then 3 else 0) =
      koopman2dCall (fun t => t) (fun t => t) (fun zc T => List.replicate T zc) 1 1 1 1
        (RTen4.of 2 1 1 1 fun _ _ _ _ => 0)) ∧
    (denseKoopman2dCall false (RTen3.of 0 0 0 fun _ _ _ => 0) (fun z => z) (fun r => r)
        (fun zc T => List.replicate T zc) 1 1 1 1
        (RTen4.of 2 1 1 1 fun t _ _ _ => if t = 1 then 3 else 0) =
      denseKoopman2dCall false (RTen3.of 0 0 0 fun _ _ _ => 0) (fun z => z) (fun r => r)
        (fun zc T => List.replicate T zc) 1 1 1 1
        (RTen4.of 2 1 1 1 fun _ _ _ _ => 0)) := by
  have hx : frame0 (RTen3.of 2 1 1 fun t _ _ => if t = 1 then 5 else 0) =
      frame0 (RTen3.of 2 1 1 fun _ _ _ => 0) := by
    unfold frame0
    simp only [RTen3_of_d2, RTen3_of_d3]
    apply RMat_of_congr
    intro w c hw hc
    rw [RTen3_get_of, RTen3_get_of]
    norm_num
  have hy : frame04 (RTen4.of 2 1 1 1 fun t _ _ _ => if t = 1 then 3 else 0) =
      frame04 (RTen4.of 2 1 1 1 fun _ _ _ _ => 0) := by
    unfold frame04
    apply RTen3_of_congr
    intro a b c ha hb hc
    rw [RTen4_get_of, RTen4_get_of]
    norm_num
  exact koopman_calls_first_frame_only (fun z => z) (fun r => r) (fun t => t) (fun t => t)
    (fun zc T => List.replicate T zc) false (RTen3.of 0 0 0 fun _ _ _ => 0)
    1 1 1 1 1 1 _ _ _ _ hx hy

/-- Modelled from the spec: flax's nn.vmap combinator (external library
code) with in_axes = 0, out_axes = 0 and unbatched parameters
(variable_axes = params: None, split_rngs = params: False), per section
4.5: identical parameters applied independently to each element along the
leading batch axis, output batch axis positionally aligned with the input
batch axis. -/
def vmapAxis0 {P α β : Type} (f : P → α → β) (p : P) (xs : ℕ → α) : ℕ → β :=
  fun i => f p (xs i)

/-- Stacking the per-element outputs of an unbatched function along the
batch axis. -/
def stack0 {α β : Type} (f : α → β) (xs : ℕ → α) : ℕ → β :=
  fun i => f (xs i)

/-- BatchedFNO1D (src/physmodjax/models/fno.py lines 153-159). -/
noncomputable def batchedFNO1D (hidden nM dV nL nSteps : ℕ) (p : FNO1DP)
    (xs : ℕ → RTen3) : ℕ → Option RTen3 :=
  vmapAxis0 (fun q => fno1d hidden nM dV nL nSteps q) p xs

/-- Parameter triple of KoopmanAutoencoder1D: encoder, decoder and
dynamics submodules. -/
structure KoopParams where
  enc : List ℝ → List ℝ
  dec : List (List ℝ) → List (List ℝ)
  dyn : List ℂ → ℕ → List (List ℂ)

/-- BatchedKoopmanAutoencoder1D (src/physmodjax/models/autoencoders.py
lines 338-345). -/
def batchedKoopman1D (dModel dVars nSteps : ℕ) (q : KoopParams)
    (xs : ℕ → RTen3) : ℕ → Option RTen3 :=
  vmapAxis0 (fun (q : KoopParams) => koopman1dCall q.enc q.dec q.dyn dModel dVars nSteps)
    q xs

/-- C2: the batched wrappers are value-equivalent to applying the unbatched
model with the same shared parameters to each batch element and stacking
the results, with the output batch axis positionally aligned with the input
batch axis. -/
theorem batched_application_equivalence (hidden nM dV nL nSteps dModel dVars : ℕ)
    (p : FNO1DP) (q : KoopParams) (xs ys : ℕ → RTen3) :
    batchedFNO1D hidden nM dV nL nSteps p xs =
      stack0 (fno1d hidden nM dV nL nSteps p) xs ∧
    batchedKoopman1D dModel dVars nSteps q ys =
      stack0 (koopman1dCall q.enc q.dec q.dyn dModel dVars nSteps) ys :=
  ⟨rfl, rfl⟩

end Physmodjax
